import Mathlib

/-!
# Verification of the markdown-to-Slack text transform

Shallow embedding of `translate_markdown_for_slack` and
`format_table_for_slack` from `src/slackbot.py` (the pure text-transform
core; the Slack API shell is out of scope).  Strings are modelled as
`List Char`; every definition is computable and structurally recursive so
concrete inputs evaluate inside the kernel.
-/

namespace Slackbot

/-- Python `str.strip()` whitespace set (ASCII): space, tab, newline,
carriage return, vertical tab, form feed. -/
def isPySpace (c : Char) : Bool :=
  c == ' ' || c == '\t' || c == '\n' || c == '\r' || c == '\x0b' || c == '\x0c'

/-- `line.strip()`: drop leading and trailing whitespace. -/
def trimChars (l : List Char) : List Char :=
  ((l.dropWhile isPySpace).reverse.dropWhile isPySpace).reverse

/-- Python `text.split(sep)` for a one-character separator. -/
def splitOnChar (sep : Char) : List Char → List (List Char)
  | [] => [[]]
  | c :: rest =>
    let r := splitOnChar sep rest
    if c = sep then [] :: r
    else (c :: r.headD []) :: r.tail

/-- Python `sep.join(pieces)`. -/
def joinSep (sep : List Char) : List (List Char) → List Char
  | [] => []
  | [x] => x
  | x :: y :: rest => x ++ sep ++ joinSep sep (y :: rest)

/-!
## Emphasis rewriter (src/slackbot.py line 128)

`text = re.sub(r'\*\*(.*?)\*\*', r'*\1*', text)`

Embedded as a left-to-right two-state scanner, exactly the behaviour of
`re.sub` for this pattern:
* state `none`: looking for an opening `**`; any other character is copied.
* state `some acc`: an opening `**` has been consumed and `acc` holds the
  (reversed) candidate content.  Since `.` does not match `\n` and `(.*?)`
  is non-greedy, the match closes at the first subsequent `**`; hitting a
  newline or the end of input means no match starts at this opener (and,
  since the scanned span contains no `**` before the newline, no match
  starts inside it either), so the scanned characters are emitted verbatim
  and scanning resumes after the newline.
-/
def emphGo : Option (List Char) → List Char → List Char
  | none, [] => []
  | none, [c] => [c]
  | none, c :: r :: rest =>
    if c = '*' ∧ r = '*' then emphGo (some []) rest
    else c :: emphGo none (r :: rest)
  | some acc, [] => '*' :: '*' :: acc.reverse
  | some acc, [c] =>
    if c = '\n' then '*' :: '*' :: acc.reverse ++ '\n' :: emphGo none []
    else emphGo (some (c :: acc)) []
  | some acc, c :: r :: rest =>
    if c = '*' ∧ r = '*' then '*' :: acc.reverse ++ '*' :: emphGo none rest
    else if c = '\n' then '*' :: '*' :: acc.reverse ++ '\n' :: emphGo none (r :: rest)
    else emphGo (some (c :: acc)) (r :: rest)

/-!
## Table reflow (src/slackbot.py lines 130-218)
-/

/-- One character of the class `[\s\-|:]` in the separator-row regex
(line 148), with `\s` the ASCII whitespace set. -/
def isSepChar (c : Char) : Bool :=
  isPySpace c || c == '-' || c == '|' || c == ':'

/-- `re.match(r'^\|[\s\-|:]+\|$', current_line)` (line 148): a pipe, then a
nonempty run of whitespace/dash/pipe/colon characters, then a pipe. -/
def isSeparatorLine (l : List Char) : Bool :=
  match l with
  | '|' :: rest =>
    decide (2 ≤ rest.length) && rest.dropLast.all isSepChar
      && decide (rest.getLast? = some '|')
  | _ => false

/-- The condition of the collection loop (line 144):
`'|' in lines[i] and lines[i].strip().startswith('|')`. -/
def contLine (l : List Char) : Bool :=
  l.contains '|' && decide ((trimChars l).head? = some '|')

/-- The table-detection condition (line 139): `'|' in line and
line.strip().startswith('|') and line.strip().endswith('|')`. -/
def startLine (l : List Char) : Bool :=
  l.contains '|' && decide ((trimChars l).head? = some '|')
    && decide ((trimChars l).getLast? = some '|')

/-- Lines 147-149: append `current_line` to `table_lines` unless it is a
separator line. -/
def addRow (cur : List Char) (acc : List (List Char)) : List (List Char) :=
  if isSeparatorLine cur then acc else acc ++ [cur]

/-- Line 180: `cells = [cell.strip() for cell in line.split('|')[1:-1]]`. -/
def parseCells (line : List Char) : List (List Char) :=
  (((splitOnChar '|' line).drop 1).dropLast).map trimChars

/-- Lines 194 and 204: `cell.replace('*', '')`. -/
def stripStars (l : List Char) : List Char :=
  l.filter (fun c => c ≠ '*')

/-- Python `s.ljust(w)`: pad on the right with spaces to width `w`. -/
def ljust (l : List Char) (w : Nat) : List Char :=
  l ++ List.replicate (w - l.length) ' '

/-- One step of the width loop (lines 190-195): update the running maximum
for column `c` with this row's cleaned cell length, if the row has a cell
at index `c`. -/
def colWidthStep (c : Nat) (w : Nat) (row : List (List Char)) : Nat :=
  match row.get? c with
  | some cell => max w (stripStars cell).length
  | none => w

/-- Lines 190-195: the final value of `col_widths[c]` — fold over the rows,
taking the maximum cleaned cell length at index `c` (rows without a cell at
`c` contribute nothing; the accumulator starts at 0). -/
def colWidth (rows : List (List (List Char))) (c : Nat) : Nat :=
  rows.foldl (colWidthStep c) 0

/-- Lines 201-207: the `formatted_cells` loop — for `i, cell` in
`enumerate(row)`, if `i < num_cols`, strip asterisks and pad to
`col_widths[i]`. -/
def formatCells : List (List Char) → Nat → Nat → List Nat → List (List Char)
  | [], _, _, _ => []
  | cell :: rest, i, nc, ws =>
    if i < nc then
      ljust (stripStars cell) ((ws.get? i).getD 0) :: formatCells rest (i + 1) nc ws
    else formatCells rest (i + 1) nc ws

/-- Lines 214-215: `'-|-'.join(['-' * col_widths[i] for i in range(num_cols)])`. -/
def sepLine (nc : Nat) (ws : List Nat) : List Char :=
  joinSep "-|-".toList
    ((List.range nc).map (fun i => List.replicate ((ws.get? i).getD 0) '-'))

/-- `format_table_for_slack` (lines 169-218).  Returns the list of rendered
content lines: the first row, then — iff more than one row remains — the
synthetic separator, then the remaining rows.  `num_cols` is the cell count
of row 0 and `col_widths` is `[colWidth rows c for c in range(num_cols)]`. -/
def format_table_for_slack (table_lines : List (List Char)) : List (List Char) :=
  if table_lines = [] then []
  else
    match table_lines.map parseCells with
    | [] => []
    | r0 :: rrest =>
      let nc := r0.length
      let ws := (List.range nc).map (colWidth (r0 :: rrest))
      joinSep " | ".toList (formatCells r0 0 nc ws)
        :: ((if rrest = [] then [] else [sepLine nc ws])
            ++ rrest.map (fun r => joinSep " | ".toList (formatCells r 0 nc ws)))

/-- The code-fence marker emitted around a rendered table (lines 156-158). -/
def fence : List Char := "```".toList

/-- Lines 153-158: `if table_lines:` wrap the formatted table in fences;
an empty collection contributes nothing. -/
def renderBlock (table_lines : List (List Char)) : List (List Char) :=
  if table_lines = [] then []
  else fence :: (format_table_for_slack table_lines ++ [fence])

/-- The line scan of `translate_markdown_for_slack` (lines 131-166) as a
two-state machine over the list of lines:

* state `none` is the outer `while` loop (line 135): a line passing the
  table-detection test (line 139) opens a block (and, passing the inner
  loop's condition a fortiori, is immediately collected); any other line is
  appended to `result_lines` unchanged.
* state `some acc` is the inner collection loop (line 144) with
  `table_lines = acc`: while the current line contains `|` and its stripped
  form starts with `|`, its stripped form is collected (separator rows are
  skipped, line 148); the first other line closes the block — it is then
  re-examined by the outer loop and, failing the detection test (the
  detection condition implies the collection condition), passes through. -/
def processLines : Option (List (List Char)) → List (List Char) → List (List Char)
  | none, [] => []
  | some acc, [] => renderBlock acc
  | none, l :: ls =>
    if startLine l then processLines (some (addRow (trimChars l) [])) ls
    else l :: processLines none ls
  | some acc, l :: ls =>
    if contLine l then processLines (some (addRow (trimChars l) acc)) ls
    else renderBlock acc ++ (l :: processLines none ls)

/-- `translate_markdown_for_slack` (lines 121-166): rewrite bold markers,
then split into lines, process table blocks, and re-join with newlines. -/
def translate_markdown_for_slack (text : String) : String :=
  (joinSep ['\n'] (processLines none (splitOnChar '\n' (emphGo none text.toList)))).asString

/-!
## Auxiliary predicates on the emphasis syntax
-/

/-- `l` contains two adjacent asterisks (an occurrence of the substring
`**`). -/
def hasAdjStars : List Char → Bool
  | [] => false
  | [_] => false
  | c :: r :: rest => (decide (c = '*') && decide (r = '*')) || hasAdjStars (r :: rest)

/-- Scanning forward from an opening `**`, a closing `**` occurs before any
newline (i.e. `(.*?)\*\*` can match here). -/
def hasCloseAhead : List Char → Bool
  | [] => false
  | [_] => false
  | c :: r :: rest =>
    (decide (c = '*') && decide (r = '*'))
      || (decide (c ≠ '\n') && hasCloseAhead (r :: rest))

/-- `l` contains a complete bold pair: an opening `**` with a closing `**`
later on the same line (so `re.sub` rewrites something). -/
def hasBoldPair : List Char → Bool
  | [] => false
  | [_] => false
  | c :: r :: rest =>
    (decide (c = '*') && decide (r = '*') && hasCloseAhead rest)
      || hasBoldPair (r :: rest)

/-!
## Option-valued mirror of the table renderer

The Python code indexes `rows[0]` and `col_widths[i]` — operations that
raise on a missing index.  The definitions below mirror the renderer with
every such access mapped through `Option` (returning `none` exactly where
Python would raise); proving they always return `some` of the total
renderer establishes that no access can fail.
-/

/-- `formatCells` with the `col_widths[i]` access made fallible. -/
def formatCellsOpt : List (List Char) → Nat → Nat → List Nat → Option (List (List Char))
  | [], _, _, _ => some []
  | cell :: rest, i, nc, ws =>
    if i < nc then
      match ws.get? i, formatCellsOpt rest (i + 1) nc ws with
      | some w, some tail => some (ljust (stripStars cell) w :: tail)
      | _, _ => none
    else formatCellsOpt rest (i + 1) nc ws

/-- `[col_widths[i] for i in range(...)]` with fallible indexing: read `k`
entries of `ws` starting at index `i`. -/
def getsOpt (ws : List Nat) : Nat → Nat → Option (List Nat)
  | _, 0 => some []
  | i, k + 1 =>
    match ws.get? i, getsOpt ws (i + 1) k with
    | some w, some t => some (w :: t)
    | _, _ => none

/-- `sepLine` with the `col_widths[i]` accesses made fallible. -/
def sepLineOpt (nc : Nat) (ws : List Nat) : Option (List Char) :=
  (getsOpt ws 0 nc).map
    (fun l => joinSep "-|-".toList (l.map (fun w => List.replicate w '-')))

/-- Map a fallible function over a list, failing if any element fails. -/
def mapOpt (f : α → Option β) : List α → Option (List β)
  | [] => some []
  | x :: xs =>
    match f x, mapOpt f xs with
    | some y, some ys => some (y :: ys)
    | _, _ => none

/-- `format_table_for_slack` with every list-indexing operation fallible
(the `rows[0]` header access is the `match`, guarded as in the source by
the emptiness tests). -/
def format_table_opt (table_lines : List (List Char)) : Option (List (List Char)) :=
  if table_lines = [] then some []
  else
    match table_lines.map parseCells with
    | [] => some []
    | r0 :: rrest =>
      let nc := r0.length
      let ws := (List.range nc).map (colWidth (r0 :: rrest))
      match formatCellsOpt r0 0 nc ws,
            (if rrest = [] then some [] else (sepLineOpt nc ws).map (fun s => [s])),
            mapOpt (fun r => formatCellsOpt r 0 nc ws) rrest with
      | some c0, some sep, some crest =>
        some (joinSep " | ".toList c0 :: (sep ++ crest.map (fun r => joinSep " | ".toList r)))
      | _, _, _ => none

/-- `renderBlock` over the fallible renderer. -/
def renderBlockOpt (table_lines : List (List Char)) : Option (List (List Char)) :=
  if table_lines = [] then some []
  else (format_table_opt table_lines).map (fun ft => fence :: (ft ++ [fence]))

/-- The line scan over the fallible renderer. -/
def processLinesOpt : Option (List (List Char)) → List (List Char) → Option (List (List Char))
  | none, [] => some []
  | some acc, [] => renderBlockOpt acc
  | none, l :: ls =>
    if startLine l then processLinesOpt (some (addRow (trimChars l) [])) ls
    else (processLinesOpt none ls).map (fun r => l :: r)
  | some acc, l :: ls =>
    if contLine l then processLinesOpt (some (addRow (trimChars l) acc)) ls
    else
      match renderBlockOpt acc, processLinesOpt none ls with
      | some rb, some r => some (rb ++ (l :: r))
      | _, _ => none

/-- The whole transform over the fallible renderer. -/
def translate_opt (text : String) : Option String :=
  (processLinesOpt none (splitOnChar '\n' (emphGo none text.toList))).map
    (fun ls => (joinSep ['\n'] ls).asString)

/-!
## Spec-model of the emphasis rewrite for claim C3

Modelled from the words of claim C3 only (not from the source): the same
non-greedy left-to-right replacement, but with content allowed to contain
any characters *including newlines*.  It differs from the code's `re.sub`
(whose `.` does not match `\n`) and exists only to witness that
difference.
-/
def specEmphGo : Option (List Char) → List Char → List Char
  | none, [] => []
  | none, [c] => [c]
  | none, c :: r :: rest =>
    if c = '*' ∧ r = '*' then specEmphGo (some []) rest
    else c :: specEmphGo none (r :: rest)
  | some acc, [] => '*' :: '*' :: acc.reverse
  | some acc, [c] => specEmphGo (some (c :: acc)) []
  | some acc, c :: r :: rest =>
    if c = '*' ∧ r = '*' then '*' :: acc.reverse ++ '*' :: specEmphGo none rest
    else specEmphGo (some (c :: acc)) (r :: rest)

/-!
## Step lemmas for the emphasis machine
-/

theorem emphGo_none_step (c r : Char) (rest : List Char) (h : ¬(c = '*' ∧ r = '*')) :
    emphGo none (c :: r :: rest) = c :: emphGo none (r :: rest) := by
  simp [emphGo, h]

theorem emphGo_none_open (rest : List Char) :
    emphGo none ('*' :: '*' :: rest) = emphGo (some []) rest := by
  simp [emphGo]

theorem emphGo_some_close (acc rest : List Char) :
    emphGo (some acc) ('*' :: '*' :: rest)
      = '*' :: acc.reverse ++ '*' :: emphGo none rest := by
  simp [emphGo]

theorem emphGo_some_newline (acc : List Char) (r : Char) (rest : List Char) :
    emphGo (some acc) ('\n' :: r :: rest)
      = '*' :: '*' :: acc.reverse ++ '\n' :: emphGo none (r :: rest) := by
  simp [emphGo]

theorem emphGo_some_step (acc : List Char) (c r : Char) (rest : List Char)
    (h1 : ¬(c = '*' ∧ r = '*')) (h2 : c ≠ '\n') :
    emphGo (some acc) (c :: r :: rest) = emphGo (some (c :: acc)) (r :: rest) := by
  simp [emphGo, h1, h2]

theorem emphGo_some_single (acc : List Char) (c : Char) (h : c ≠ '\n') :
    emphGo (some acc) [c] = '*' :: '*' :: (c :: acc).reverse := by
  simp [emphGo, h]

theorem emphGo_some_single_nl (acc : List Char) :
    emphGo (some acc) ['\n'] = '*' :: '*' :: acc.reverse ++ ['\n'] := by
  simp [emphGo]

/-!
## Behaviour of the emphasis machine on pair-free text
-/

theorem hasBoldPair_tail (x : Char) (xs : List Char) (h : hasBoldPair (x :: xs) = false) :
    hasBoldPair xs = false := by
  cases xs with
  | nil => rfl
  | cons y ys =>
    simp only [hasBoldPair, Bool.or_eq_false_iff] at h
    exact h.2

theorem emphGo_id_aux (n : Nat) : ∀ l : List Char, l.length ≤ n →
    (hasBoldPair l = false → emphGo none l = l) ∧
    (∀ acc, hasCloseAhead l = false → hasBoldPair l = false →
      emphGo (some acc) l = '*' :: '*' :: acc.reverse ++ l) := by
  induction n with
  | zero =>
    intro l hl
    have : l = [] := List.length_eq_zero.mp (Nat.le_zero.mp hl)
    subst this
    exact ⟨fun _ => rfl, fun acc _ _ => by simp [emphGo]⟩
  | succ n ih =>
    intro l hl
    match l with
    | [] => exact ⟨fun _ => rfl, fun acc _ _ => by simp [emphGo]⟩
    | [c] =>
      refine ⟨fun _ => rfl, fun acc _ _ => ?_⟩
      by_cases hc : c = '\n'
      · subst hc; simp [emphGo_some_single_nl]
      · simp [emphGo_some_single acc c hc]
    | c :: r :: rest =>
      have hlen : (r :: rest).length ≤ n := by
        simpa using Nat.succ_le_succ_iff.mp (by simpa using hl)
      have hlen2 : rest.length ≤ n :=
        Nat.le_trans (Nat.le_succ _) hlen
      constructor
      · intro hnp
        by_cases hp : c = '*' ∧ r = '*'
        · obtain ⟨hc, hr⟩ := hp
          subst hc; subst hr
          simp only [hasBoldPair, Bool.or_eq_false_iff, Bool.and_eq_false_iff] at hnp
          have hclose : hasCloseAhead rest = false := by
            rcases hnp.1 with h | h
            · rcases h with h | h <;> simp at h
            · exact h
          have hbp : hasBoldPair rest = false := hasBoldPair_tail _ _ hnp.2
          rw [emphGo_none_open]
          have := (ih rest hlen2).2 [] hclose hbp
          simpa using this
        · rw [emphGo_none_step c r rest hp]
          have hbp : hasBoldPair (r :: rest) = false := by
            simp only [hasBoldPair, Bool.or_eq_false_iff] at hnp
            exact hnp.2
          rw [(ih (r :: rest) hlen).1 hbp]
      · intro acc hca hnp
        by_cases hp : c = '*' ∧ r = '*'
        · exfalso
          obtain ⟨hc, hr⟩ := hp
          subst hc; subst hr
          simp [hasCloseAhead] at hca
        · by_cases hc : c = '\n'
          · subst hc
            rw [emphGo_some_newline]
            have hbp : hasBoldPair (r :: rest) = false := by
              simp only [hasBoldPair, Bool.or_eq_false_iff] at hnp
              exact hnp.2
            rw [(ih (r :: rest) hlen).1 hbp]
          · rw [emphGo_some_step acc c r rest hp hc]
            have hca' : hasCloseAhead (r :: rest) = false := by
              simp only [hasCloseAhead, Bool.or_eq_false_iff, Bool.and_eq_false_iff] at hca
              rcases hca.2 with h | h
              · simp [hc] at h
              · exact h
            have hbp : hasBoldPair (r :: rest) = false := by
              simp only [hasBoldPair, Bool.or_eq_false_iff] at hnp
              exact hnp.2
            rw [(ih (r :: rest) hlen).2 (c :: acc) hca' hbp]
            simp

/-- On text with no complete bold pair, the emphasis rewrite is the
identity. -/
theorem emphGo_id (l : List Char) (h : hasBoldPair l = false) :
    emphGo none l = l :=
  (emphGo_id_aux l.length l (Nat.le_refl _)).1 h

/-- Scanning can step through a list with no adjacent asterisks that does
not end with an asterisk, before a suffix beginning with `**`. -/
theorem emphGo_none_before (pre : List Char) : ∀ rest : List Char,
    hasAdjStars pre = false → pre.getLast? ≠ some '*' →
    emphGo none (pre ++ '*' :: '*' :: rest) = pre ++ emphGo none ('*' :: '*' :: rest) := by
  induction pre with
  | nil => intro rest _ _; rfl
  | cons a pre' ih =>
    intro rest h1 h2
    cases pre' with
    | nil =>
      have ha : a ≠ '*' := by
        intro h; exact h2 (by simp [h])
      rw [List.cons_append, List.nil_append]
      rw [emphGo_none_step a '*' ('*' :: rest) (by tauto)]
      rfl
    | cons b pre'' =>
      have hab : ¬(a = '*' ∧ b = '*') := by
        intro ⟨ha, hb⟩
        simp [hasAdjStars, ha, hb] at h1
      have h1' : hasAdjStars (b :: pre'') = false := by
        simp only [hasAdjStars, Bool.or_eq_false_iff] at h1
        exact h1.2
      have h2' : (b :: pre'').getLast? ≠ some '*' := by
        simpa [List.getLast?_cons_cons] using h2
      rw [List.cons_append, List.cons_append]
      rw [emphGo_none_step a b (pre'' ++ '*' :: '*' :: rest) hab]
      rw [← List.cons_append]
      rw [ih rest h1' h2']
      simp

/-- Scanning from an opened `**` through newline-free content `c` with no
adjacent asterisks and no trailing asterisk closes at the first following
`**`, yielding the single-starred span and resuming after it. -/
theorem emphGo_some_closes (c : List Char) : ∀ (acc rest : List Char),
    '\n' ∉ c → hasAdjStars c = false → c.getLast? ≠ some '*' →
    emphGo (some acc) (c ++ '*' :: '*' :: rest)
      = '*' :: (acc.reverse ++ c) ++ '*' :: emphGo none rest := by
  induction c with
  | nil => intro acc rest _ _ _; simp [emphGo_some_close]
  | cons a c' ih =>
    intro acc rest hnl h1 h2
    have hanl : a ≠ '\n' := by
      intro h; exact hnl (by simp [h])
    have hnl' : '\n' ∉ c' := fun h => hnl (List.mem_cons_of_mem _ h)
    cases c' with
    | nil =>
      have ha : a ≠ '*' := by
        intro h; exact h2 (by simp [h])
      rw [List.cons_append, List.nil_append]
      rw [emphGo_some_step acc a '*' ('*' :: rest) (by tauto) hanl]
      rw [emphGo_some_close]
      simp
    | cons b c'' =>
      have hab : ¬(a = '*' ∧ b = '*') := by
        intro ⟨ha, hb⟩
        simp [hasAdjStars, ha, hb] at h1
      have h1' : hasAdjStars (b :: c'') = false := by
        simp only [hasAdjStars, Bool.or_eq_false_iff] at h1
        exact h1.2
      have h2' : (b :: c'').getLast? ≠ some '*' := by
        simpa [List.getLast?_cons_cons] using h2
      rw [List.cons_append, List.cons_append]
      rw [emphGo_some_step acc a b (c'' ++ '*' :: '*' :: rest) hab hanl]
      rw [← List.cons_append]
      rw [ih (a :: acc) rest hnl' h1' h2']
      simp

theorem hasCloseAhead_false_of_noAdj : ∀ l : List Char,
    hasAdjStars l = false → hasCloseAhead l = false := by
  intro l
  induction l with
  | nil => intro _; rfl
  | cons a t ih =>
    cases t with
    | nil => intro _; rfl
    | cons b t' =>
      intro h
      simp only [hasAdjStars, Bool.or_eq_false_iff] at h
      simp only [hasCloseAhead, Bool.or_eq_false_iff]
      exact ⟨h.1, by rw [ih h.2]; simp⟩

theorem hasBoldPair_false_of_noAdj : ∀ l : List Char,
    hasAdjStars l = false → hasBoldPair l = false := by
  intro l
  induction l with
  | nil => intro _; rfl
  | cons a t ih =>
    cases t with
    | nil => intro _; rfl
    | cons b t' =>
      intro h
      simp only [hasAdjStars, Bool.or_eq_false_iff] at h
      simp only [hasBoldPair, Bool.or_eq_false_iff]
      refine ⟨?_, ih h.2⟩
      rcases Bool.and_eq_false_iff.mp h.1 with h' | h' <;> simp [h']

/-!
## The line scan: pass-through, block decomposition, identity
-/

theorem startLine_false_of_contLine_false (l : List Char) (h : contLine l = false) :
    startLine l = false := by
  unfold contLine at h
  unfold startLine
  rcases Bool.and_eq_false_iff.mp h with h' | h' <;> rw [h'] <;> simp

theorem processLines_pass (l : List Char) (ls : List (List Char))
    (h : startLine l = false) :
    processLines none (l :: ls) = l :: processLines none ls := by
  simp [processLines, h]

/-- On input with no line passing the table-detection test, the line scan
is the identity. -/
theorem processLines_id (ls : List (List Char))
    (h : ∀ l ∈ ls, startLine l = false) : processLines none ls = ls := by
  induction ls with
  | nil => rfl
  | cons l t ih =>
    rw [processLines_pass l t (h l (List.mem_cons_self l t))]
    rw [ih (fun x hx => h x (List.mem_cons_of_mem l hx))]

theorem addRow_filter (l : List Char) (acc bs : List (List Char)) :
    addRow (trimChars l) acc ++ (bs.map trimChars).filter (fun c => !isSeparatorLine c)
      = acc ++ (((l :: bs).map trimChars).filter (fun c => !isSeparatorLine c)) := by
  by_cases h : isSeparatorLine (trimChars l) = true
  · simp [addRow, h, List.filter_cons]
  · simp only [Bool.not_eq_true] at h
    simp [addRow, h, List.filter_cons]

/-- The collection loop: starting in collection state with accumulator
`acc`, a run of lines satisfying the collection condition followed by a
non-collecting line (or end of input) produces the fenced rendering of the
accumulated non-separator stripped lines, then resumes the outer scan. -/
theorem processLines_scan (block : List (List Char)) :
    ∀ (acc rest : List (List Char)),
    (∀ l ∈ block, contLine l = true) →
    (∀ r, rest.head? = some r → contLine r = false) →
    processLines (some acc) (block ++ rest)
      = renderBlock (acc ++ ((block.map trimChars).filter (fun c => !isSeparatorLine c)))
          ++ processLines none rest := by
  induction block with
  | nil =>
    intro acc rest _ hr
    cases rest with
    | nil => simp [processLines]
    | cons r rs =>
      have hcr : contLine r = false := hr r rfl
      simp only [List.nil_append, List.map_nil, List.filter_nil, List.append_nil]
      rw [processLines_pass r rs (startLine_false_of_contLine_false r hcr)]
      simp [processLines, hcr]
  | cons l bs ih =>
    intro acc rest hb hr
    have hcl : contLine l = true := hb l (List.mem_cons_self l bs)
    rw [List.cons_append]
    show processLines (some acc) (l :: (bs ++ rest)) = _
    rw [show processLines (some acc) (l :: (bs ++ rest))
        = processLines (some (addRow (trimChars l) acc)) (bs ++ rest) by
      simp [processLines, hcl]]
    rw [ih (addRow (trimChars l) acc) rest (fun x hx => hb x (List.mem_cons_of_mem l hx)) hr]
    rw [addRow_filter]

/-- Block decomposition of the outer scan: a maximal run of collecting
lines whose first line passes detection renders as one block, and the scan
resumes on the remainder. -/
theorem processLines_block (block rest : List (List Char))
    (hne : block ≠ [])
    (hs : startLine (block.headD []) = true)
    (hb : ∀ l ∈ block, contLine l = true)
    (hr : ∀ r, rest.head? = some r → contLine r = false) :
    processLines none (block ++ rest)
      = renderBlock ((block.map trimChars).filter (fun c => !isSeparatorLine c))
          ++ processLines none rest := by
  cases block with
  | nil => exact absurd rfl hne
  | cons l bs =>
    simp only [List.headD_cons] at hs
    rw [List.cons_append]
    rw [show processLines none (l :: (bs ++ rest))
        = processLines (some (addRow (trimChars l) [])) (bs ++ rest) by
      simp [processLines, hs]]
    rw [processLines_scan bs (addRow (trimChars l) []) rest
      (fun x hx => hb x (List.mem_cons_of_mem l hx)) hr]
    rw [show addRow (trimChars l) []
          ++ ((bs.map trimChars).filter (fun c => !isSeparatorLine c))
        = [] ++ (((l :: bs).map trimChars).filter (fun c => !isSeparatorLine c)) from
      addRow_filter l [] bs]
    rfl

/-!
## Splitting and joining lines
-/

theorem splitOnChar_ne_nil (sep : Char) (l : List Char) : splitOnChar sep l ≠ [] := by
  cases l with
  | nil => simp [splitOnChar]
  | cons c rest =>
    by_cases h : c = sep <;> simp [splitOnChar, h]

theorem joinSep_splitOnChar (l : List Char) :
    joinSep ['\n'] (splitOnChar '\n' l) = l := by
  induction l with
  | nil => rfl
  | cons c rest ih =>
    obtain ⟨h, t, hr⟩ : ∃ h t, splitOnChar '\n' rest = h :: t := by
      cases hs : splitOnChar '\n' rest with
      | nil => exact absurd hs (splitOnChar_ne_nil '\n' rest)
      | cons h t => exact ⟨h, t, rfl⟩
    by_cases hc : c = '\n'
    · subst hc
      simp only [splitOnChar, if_pos rfl]
      rw [hr] at ih ⊢
      show [] ++ ['\n'] ++ joinSep ['\n'] (h :: t) = '\n' :: rest
      rw [ih]
      rfl
    · simp only [splitOnChar, if_neg hc]
      rw [hr] at ih ⊢
      cases t with
      | nil =>
        show c :: h = c :: rest
        simpa using ih
      | cons y t' =>
        show (c :: h) ++ ['\n'] ++ joinSep ['\n'] (y :: t') = c :: rest
        rw [← ih]
        simp [joinSep]

theorem asString_toList (s : String) : s.toList.asString = s := rfl

/-!
## Column widths: bound and attainment
-/

theorem colWidthStep_le (c : Nat) (a : Nat) (row : List (List Char)) :
    a ≤ colWidthStep c a row := by
  unfold colWidthStep
  cases row.get? c with
  | none => exact Nat.le_refl a
  | some cell => exact Nat.le_max_left _ _

theorem foldl_colWidthStep_le (c : Nat) :
    ∀ (rows : List (List (List Char))) (a : Nat),
    a ≤ rows.foldl (colWidthStep c) a := by
  intro rows
  induction rows with
  | nil => intro a; exact Nat.le_refl a
  | cons r rs ih =>
    intro a
    exact Nat.le_trans (colWidthStep_le c a r) (ih (colWidthStep c a r))

theorem foldl_colWidthStep_mem_le (c : Nat) :
    ∀ (rows : List (List (List Char))) (a : Nat) (row : List (List Char)),
    row ∈ rows → ∀ cell, row.get? c = some cell →
    (stripStars cell).length ≤ rows.foldl (colWidthStep c) a := by
  intro rows
  induction rows with
  | nil => intro a row hm; exact absurd hm (List.not_mem_nil row)
  | cons r rs ih =>
    intro a row hm cell hg
    rcases List.mem_cons.mp hm with h | h
    · subst h
      have h1 : (stripStars cell).length ≤ colWidthStep c a row := by
        unfold colWidthStep
        rw [hg]
        exact Nat.le_max_right _ _
      exact Nat.le_trans h1 (foldl_colWidthStep_le c rs _)
    · exact ih _ row h cell hg

theorem foldl_colWidthStep_attained (c : Nat) :
    ∀ (rows : List (List (List Char))) (a : Nat),
    rows.foldl (colWidthStep c) a = a ∨
    ∃ row ∈ rows, ∃ cell, row.get? c = some cell ∧
      rows.foldl (colWidthStep c) a = (stripStars cell).length := by
  intro rows
  induction rows with
  | nil => intro a; exact Or.inl rfl
  | cons r rs ih =>
    intro a
    rcases ih (colWidthStep c a r) with h | h
    · rw [List.foldl_cons, h]
      unfold colWidthStep
      cases hg : r.get? c with
      | none => exact Or.inl rfl
      | some cell =>
        rcases Nat.le_total a (stripStars cell).length with hle | hle
        · exact Or.inr ⟨r, List.mem_cons_self r rs, cell, hg, Nat.max_eq_right hle⟩
        · exact Or.inl (Nat.max_eq_left hle)
    · obtain ⟨row, hm, cell, hg, he⟩ := h
      rw [List.foldl_cons]
      exact Or.inr ⟨row, List.mem_cons_of_mem r hm, cell, hg, he⟩

/-!
## Degenerate zero-column tables
-/

theorem formatCells_zero_cols : ∀ (row : List (List Char)) (i : Nat) (ws : List Nat),
    formatCells row i 0 ws = [] := by
  intro row
  induction row with
  | nil => intro i ws; rfl
  | cons cell rest ih =>
    intro i ws
    simp only [formatCells, Nat.not_lt_zero, if_false]
    exact ih (i + 1) ws

theorem map_joinSep_zero_cols (ws : List Nat) :
    ∀ (rs : List (List (List Char))),
    rs.map (fun r => joinSep " | ".toList (formatCells r 0 0 ws))
      = List.replicate rs.length [] := by
  intro rs
  induction rs with
  | nil => rfl
  | cons r rest ih =>
    simp only [List.map_cons, List.length_cons, List.replicate_succ]
    rw [formatCells_zero_cols, ih]
    rfl

/-!
## The fallible mirror always succeeds
-/

theorem formatCellsOpt_eq : ∀ (row : List (List Char)) (i nc : Nat) (ws : List Nat),
    ws.length = nc → formatCellsOpt row i nc ws = some (formatCells row i nc ws) := by
  intro row
  induction row with
  | nil => intro i nc ws _; rfl
  | cons cell rest ih =>
    intro i nc ws h
    by_cases hi : i < nc
    · have hilen : i < ws.length := by omega
      obtain ⟨w, hw⟩ : ∃ w, ws.get? i = some w :=
        ⟨ws.get ⟨i, hilen⟩, List.get?_eq_get hilen⟩
      simp only [formatCellsOpt, formatCells, if_pos hi]
      rw [hw, ih (i + 1) nc ws h]
      simp
    · simp only [formatCellsOpt, formatCells, if_neg hi]
      exact ih (i + 1) nc ws h

theorem drop_take_get : ∀ (ws : List Nat) (i k : Nat) (h : i < ws.length),
    (ws.drop i).take (k + 1) = ws.get ⟨i, h⟩ :: ((ws.drop (i + 1)).take k) := by
  intro ws
  induction ws with
  | nil => intro i k h; exact absurd h (by simp)
  | cons x t ih =>
    intro i k h
    cases i with
    | zero => rfl
    | succ j =>
      have hj : j < t.length := by simpa using h
      simpa using ih j k hj

theorem getsOpt_eq : ∀ (k i : Nat) (ws : List Nat), i + k ≤ ws.length →
    getsOpt ws i k = some ((ws.drop i).take k) := by
  intro k
  induction k with
  | zero => intro i ws _; simp [getsOpt]
  | succ k ih =>
    intro i ws h
    have hi : i < ws.length := by omega
    have h1 : ws.get? i = some (ws.get ⟨i, hi⟩) := List.get?_eq_get hi
    have h2 : getsOpt ws (i + 1) k = some ((ws.drop (i + 1)).take k) :=
      ih (i + 1) ws (by omega)
    simp only [getsOpt, h1, h2]
    rw [drop_take_get ws i k hi]

theorem range_map_replicate : ∀ ws : List Nat,
    (List.range ws.length).map (fun i => List.replicate ((ws.get? i).getD 0) '-')
      = ws.map (fun w => List.replicate w '-') := by
  intro ws
  induction ws with
  | nil => rfl
  | cons x t ih =>
    rw [List.length_cons, List.range_succ_eq_map, List.map_cons, List.map_map]
    show List.replicate x '-' :: (List.range t.length).map
        ((fun i => List.replicate (((x :: t).get? i).getD 0) '-') ∘ Nat.succ)
      = List.replicate x '-' :: t.map (fun w => List.replicate w '-')
    have hf : ((fun i => List.replicate (((x :: t).get? i).getD 0) '-') ∘ Nat.succ)
        = fun i => List.replicate ((t.get? i).getD 0) '-' := funext fun i => rfl
    rw [hf, ih]

theorem sepLineOpt_eq (nc : Nat) (ws : List Nat) (h : ws.length = nc) :
    sepLineOpt nc ws = some (sepLine nc ws) := by
  unfold sepLineOpt sepLine
  rw [getsOpt_eq nc 0 ws (by omega)]
  subst h
  rw [List.drop_zero, List.take_length, Option.map_some']
  rw [range_map_replicate]

theorem mapOpt_eq {α β : Type} (f : α → Option β) (g : α → β) :
    ∀ l : List α, (∀ a ∈ l, f a = some (g a)) → mapOpt f l = some (l.map g) := by
  intro l
  induction l with
  | nil => intro _; rfl
  | cons x xs ih =>
    intro h
    simp only [mapOpt, h x (List.mem_cons_self x xs),
      ih (fun a ha => h a (List.mem_cons_of_mem x ha))]
    rfl

theorem format_table_opt_eq (tl : List (List Char)) :
    format_table_opt tl = some (format_table_for_slack tl) := by
  by_cases h : tl = []
  · subst h; rfl
  · unfold format_table_opt format_table_for_slack
    rw [if_neg h, if_neg h]
    cases hm : tl.map parseCells with
    | nil => rfl
    | cons r0 rrest =>
      dsimp only
      have hws : ((List.range r0.length).map (colWidth (r0 :: rrest))).length = r0.length := by
        simp
      rw [formatCellsOpt_eq r0 0 r0.length _ hws]
      rw [mapOpt_eq _ (fun r => formatCells r 0 r0.length
        ((List.range r0.length).map (colWidth (r0 :: rrest))))
        rrest (fun a _ => formatCellsOpt_eq a 0 r0.length _ hws)]
      by_cases hr : rrest = []
      · subst hr; rfl
      · rw [if_neg hr, if_neg hr]
        rw [sepLineOpt_eq r0.length _ hws]
        rw [Option.map_some']
        dsimp only
        rw [List.map_map]
        rfl

theorem renderBlockOpt_eq (tl : List (List Char)) :
    renderBlockOpt tl = some (renderBlock tl) := by
  by_cases h : tl = []
  · subst h; rfl
  · unfold renderBlockOpt renderBlock
    rw [if_neg h, if_neg h, format_table_opt_eq]
    rfl

theorem processLinesOpt_eq : ∀ (ls : List (List Char)) (st : Option (List (List Char))),
    processLinesOpt st ls = some (processLines st ls) := by
  intro ls
  induction ls with
  | nil =>
    intro st
    cases st with
    | none => rfl
    | some acc => exact renderBlockOpt_eq acc
  | cons l t ih =>
    intro st
    cases st with
    | none =>
      by_cases h : startLine l = true
      · simp only [processLinesOpt, processLines, h, if_true]
        exact ih _
      · simp only [processLinesOpt, processLines, h, if_false]
        rw [ih none]
        rfl
    | some acc =>
      by_cases h : contLine l = true
      · simp only [processLinesOpt, processLines, h, if_true]
        exact ih _
      · simp only [processLinesOpt, processLines, h, if_false]
        rw [ih none, renderBlockOpt_eq]
        rfl

/-!
## Claim theorems
-/

/-- C1, counterexample: for the all-separator block `"|-|"` the transform
returns the empty string — the code (line 154 `if table_lines:`) drops the
block entirely instead of emitting an empty fenced block. -/
theorem trans_C1_cex :
    translate_markdown_for_slack "|-|" = "" ∧ ("" : String) ≠ "```\n```" :=
  ⟨by decide, by decide⟩

/-- C1, amended: a detected table block all of whose collected rows are
separator rows contributes nothing at all to the output — no fence lines
are emitted for it. -/
theorem trans_C1 : ∀ (block rest : List (List Char)),
    block ≠ [] →
    startLine (block.headD []) = true →
    (∀ l ∈ block, contLine l = true) →
    (∀ l ∈ block, isSeparatorLine (trimChars l) = true) →
    (∀ r, rest.head? = some r → contLine r = false) →
    processLines none (block ++ rest) = processLines none rest := by
  intro block rest hne hs hb hsep hr
  rw [processLines_block block rest hne hs hb hr]
  have hf : (block.map trimChars).filter (fun c => !isSeparatorLine c) = [] := by
    rw [List.filter_eq_nil_iff]
    intro a ha
    obtain ⟨l, hl, rfl⟩ := List.mem_map.mp ha
    simp [hsep l hl]
  rw [hf]
  rfl

/-- C1, witness for the amended theorem. -/
theorem trans_C1_witness :
    processLines none ["|-|".toList, "x".toList] = ["x".toList] :=
  (trans_C1 ["|-|".toList] ["x".toList] (by decide) (by decide) (by decide) (by decide)
    (by intro r hr; simp at hr; subst hr; decide)).trans (by decide)

/-- C2, counterexample: after the table row `"|a|"`, the line `"|b"`
(trimmed form starts with `|` but does not end with `|`) is absorbed into
the table block — it does not appear in the output, contradicting the
claim that block extension stops at it and passes it through verbatim. -/
theorem trans_C2_cex :
    translate_markdown_for_slack "|a|\n|b" = "```\na\n-\n\n```" ∧
    ¬ ("|b".toList ∈ splitOnChar '\n' (translate_markdown_for_slack "|a|\n|b").toList) :=
  ⟨by decide, by decide⟩

/-- C2, amended: a block *starts* at a line whose trimmed form starts and
ends with `|`, but *extension* only requires the line to contain `|` and
its trimmed form to start with `|` (so a line starting but not ending with
`|` is absorbed); lines outside any block pass through unchanged in their
original positions. -/
theorem trans_C2 :
    (∀ (l : List Char) (ls : List (List Char)), startLine l = false →
      processLines none (l :: ls) = l :: processLines none ls) ∧
    (∀ (block rest : List (List Char)),
      block ≠ [] →
      startLine (block.headD []) = true →
      (∀ l ∈ block, contLine l = true) →
      (∀ r, rest.head? = some r → contLine r = false) →
      processLines none (block ++ rest)
        = renderBlock ((block.map trimChars).filter (fun c => !isSeparatorLine c))
            ++ processLines none rest) :=
  ⟨processLines_pass, processLines_block⟩

/-- C2, witness for the amended theorem: the two-line block
`["|a|", "|b"]` renders as one fenced table absorbing `"|b"`. -/
theorem trans_C2_witness :
    processLines none ["|a|".toList, "|b".toList]
      = [fence, "a".toList, "-".toList, [], fence] :=
  (trans_C2.2 ["|a|".toList, "|b".toList] [] (by decide) (by decide) (by decide)
    (by intro r hr; simp at hr)).trans (by decide)

/-- C3, counterexample: on `"**a\nb**"` the spec-modelled rewrite (content
may contain newlines) produces `"*a\nb*"`, but the code's rewrite leaves
the text unchanged — `.` in the pattern does not match a newline. -/
theorem trans_C3_cex :
    specEmphGo none "**a\nb**".toList = "*a\nb*".toList ∧
    emphGo none "**a\nb**".toList = "**a\nb**".toList ∧
    "**a\nb**".toList ≠ "*a\nb*".toList :=
  ⟨by decide, by decide, by decide⟩

/-- C3, amended: every substring `**<content>**` (non-greedy, leftmost,
content free of newlines — and, to make the occurrence unambiguous, free
of `**` and not bordered by extra asterisks) is rewritten to
`*<content>*`, and rewriting continues after the closing marker. -/
theorem trans_C3 : ∀ (pre c rest : List Char),
    hasAdjStars pre = false →
    pre.getLast? ≠ some '*' →
    '\n' ∉ c →
    hasAdjStars c = false →
    c.getLast? ≠ some '*' →
    emphGo none (pre ++ '*' :: '*' :: (c ++ '*' :: '*' :: rest))
      = pre ++ '*' :: (c ++ '*' :: emphGo none rest) := by
  intro pre c rest h1 h2 h3 h4 h5
  rw [emphGo_none_before pre _ h1 h2]
  rw [emphGo_none_open]
  rw [emphGo_some_closes c [] rest h3 h4 h5]
  simp

/-- C3, witness for the amended theorem. -/
theorem trans_C3_witness :
    emphGo none "x**hi**!".toList = "x*hi*!".toList :=
  (trans_C3 "x".toList "hi".toList "!".toList (by decide) (by decide) (by decide)
    (by decide) (by decide)).trans (by decide)

/-- C4, counterexample: the single-row table `"|a|bb|"` does not render
the content line `"a  | bb"` claimed by the spec (the first cell is padded
to width 1, so only one space precedes the separator). -/
theorem trans_C4_cex :
    format_table_for_slack ["|a|bb|".toList] ≠ ["a  | bb".toList] ∧
    ¬ ("a  | bb".toList ∈ splitOnChar '\n' (translate_markdown_for_slack "|a|bb|").toList) :=
  ⟨by decide, by decide⟩

/-- C4, amended: `"|a|bb|"` renders as a fenced block with the single
content line `"a | bb"`, the computed column widths are 1 and 2, and no
separator line is emitted. -/
theorem trans_C4 :
    translate_markdown_for_slack "|a|bb|" = "```\na | bb\n```" ∧
    format_table_for_slack ["|a|bb|".toList] = ["a | bb".toList] ∧
    (List.range (parseCells "|a|bb|".toList).length).map
      (colWidth [parseCells "|a|bb|".toList]) = [1, 2] :=
  ⟨by decide, by decide, by decide⟩

/-- C5, counterexample: the rendered block for the header/separator/row
table does not contain the claimed separator line `"-----|-----"` (the
joiner `-|-` contributes the dash on only one side of the pipe, giving
`"-----|----"`). -/
theorem trans_C5_cex :
    ¬ ("-----|-----".toList ∈ splitOnChar '\n'
      (translate_markdown_for_slack "|Name|Age|\n|---|---|\n|Bob|30|").toList) := by
  decide

/-- C5, amended: the three-line table renders as exactly three content
lines `"Name | Age"`, `"-----|----"`, `"Bob  | 30 "` (widths 4 and 3;
the separator is the per-column dash runs joined with `-|-`), and the
separator line is emitted exactly when more than one row survives
filtering (one extra output line iff the block has at least two rows). -/
theorem trans_C5 :
    translate_markdown_for_slack "|Name|Age|\n|---|---|\n|Bob|30|"
      = "```\nName | Age\n-----|----\nBob  | 30 \n```" ∧
    (∀ tl : List (List Char), tl ≠ [] →
      (format_table_for_slack tl).length
        = tl.length + (if 1 < tl.length then 1 else 0)) := by
  constructor
  · decide
  · intro tl h
    cases tl with
    | nil => exact absurd rfl h
    | cons l ts =>
      unfold format_table_for_slack
      rw [if_neg h]
      rw [List.map_cons]
      dsimp only
      by_cases hts : ts = []
      · subst hts; simp
      · have hmap : ts.map parseCells ≠ [] := by
          simpa [List.map_eq_nil_iff] using hts
        rw [if_neg hmap]
        have hlen : 0 < ts.length := List.length_pos.mpr hts
        simp [List.length_cons, List.length_append, List.length_map, hlen]

/-- C5, witness for the row-count clause of the amended theorem. -/
theorem trans_C5_witness :
    (format_table_for_slack ["|a|".toList, "|b|".toList]).length = 3 :=
  (trans_C5.2 ["|a|".toList, "|b|".toList] (by decide)).trans (by decide)

/-- C6, counterexample: `" |a| "` contains no `**` pair and no line that
both starts and ends with `|` *without trimming* (the line starts with a
space), yet the transform is not the identity on it — detection strips the
line first. -/
theorem trans_C6_cex :
    hasBoldPair " |a| ".toList = false ∧
    (∀ l ∈ splitOnChar '\n' " |a| ".toList,
      ¬(l.head? = some '|' ∧ l.getLast? = some '|')) ∧
    translate_markdown_for_slack " |a| " = "```\na\n```" ∧
    translate_markdown_for_slack " |a| " ≠ " |a| " :=
  ⟨by decide, by decide, by decide, by decide⟩

/-- C6, amended: the transform is the identity on strings with no complete
`**...**` pair and no line whose *trimmed* form both starts and ends with
`|`. -/
theorem trans_C6 : ∀ s : String,
    hasBoldPair s.toList = false →
    (∀ l ∈ splitOnChar '\n' s.toList, startLine l = false) →
    translate_markdown_for_slack s = s := by
  intro s h1 h2
  unfold translate_markdown_for_slack
  rw [emphGo_id s.toList h1]
  rw [processLines_id _ h2]
  rw [joinSep_splitOnChar]
  exact asString_toList s

/-- C6, witness for the amended theorem. -/
theorem trans_C6_witness :
    translate_markdown_for_slack "hello | world\nplain **text"
      = "hello | world\nplain **text" :=
  trans_C6 "hello | world\nplain **text" (by decide) (by decide)

/-- C7, confirmed: with `num_cols` the cell count of the first parsed row,
for each column `c < num_cols` the width `colWidth rows c` is an upper
bound of, and is attained by, the lengths of the asterisk-stripped cells
at index `c` over the rows possessing such a cell (rows with at most `c`
cells contribute nothing); a cell `"*Bob*"` measures 3, not 5. -/
theorem trans_C7 : ∀ (table_lines : List (List Char)) (c : Nat),
    table_lines ≠ [] →
    c < ((table_lines.map parseCells).headD []).length →
    (∀ row ∈ table_lines.map parseCells, ∀ cell, row.get? c = some cell →
      (stripStars cell).length ≤ colWidth (table_lines.map parseCells) c) ∧
    (∃ row ∈ table_lines.map parseCells, ∃ cell, row.get? c = some cell ∧
      (stripStars cell).length = colWidth (table_lines.map parseCells) c) ∧
    (stripStars "*Bob*".toList).length = 3 := by
  intro tl c hne hc
  refine ⟨?_, ?_, by decide⟩
  · intro row hm cell hg
    exact foldl_colWidthStep_mem_le c (tl.map parseCells) 0 row hm cell hg
  · cases htl : tl.map parseCells with
    | nil =>
      cases tl with
      | nil => exact absurd rfl hne
      | cons a b => simp at htl
    | cons r0 rs =>
      rw [htl] at hc
      simp only [List.headD_cons] at hc
      have hr0 : r0.get? c = some (r0.get ⟨c, hc⟩) := List.get?_eq_get hc
      rcases foldl_colWidthStep_attained c (r0 :: rs) 0 with h0 | h
      · refine ⟨r0, List.mem_cons_self r0 rs, r0.get ⟨c, hc⟩, hr0, ?_⟩
        have hle : (stripStars (r0.get ⟨c, hc⟩)).length
            ≤ (r0 :: rs).foldl (colWidthStep c) 0 :=
          foldl_colWidthStep_mem_le c (r0 :: rs) 0 r0
            (List.mem_cons_self r0 rs) _ hr0
        rw [h0] at hle
        have hz : (stripStars (r0.get ⟨c, hc⟩)).length = 0 := Nat.le_zero.mp hle
        rw [hz]
        unfold colWidth
        rw [h0]
      · obtain ⟨row, hm, cell, hg, he⟩ := h
        exact ⟨row, hm, cell, hg, he.symm⟩

/-- C7, witness. -/
theorem trans_C7_witness :
    (∀ row ∈ ["|a|bb|".toList].map parseCells, ∀ cell, row.get? 1 = some cell →
      (stripStars cell).length ≤ colWidth (["|a|bb|".toList].map parseCells) 1) ∧
    (∃ row ∈ ["|a|bb|".toList].map parseCells, ∃ cell, row.get? 1 = some cell ∧
      (stripStars cell).length = colWidth (["|a|bb|".toList].map parseCells) 1) ∧
    (stripStars "*Bob*".toList).length = 3 :=
  trans_C7 ["|a|bb|".toList] 1 (by decide) (by decide)

/-- C8, confirmed: the mirror of the transform in which every list-indexing
operation of the source (`rows[0]`, `col_widths[i]`) is fallible always
succeeds, returning exactly the total transform's output — the transform is
total and deterministic on every input string. -/
theorem trans_C8 : ∀ s : String,
    translate_opt s = some (translate_markdown_for_slack s) := by
  intro s
  unfold translate_opt translate_markdown_for_slack
  rw [processLinesOpt_eq]
  rfl

/-- C9, counterexample: in `"|**x|"` the `**` occurrence is not followed by
any closing `**`, yet it is not left verbatim in the output — the table
renderer strips every asterisk from cell display (line 204), so the output
contains no asterisk at all. -/
theorem trans_C9_cex :
    translate_markdown_for_slack "|**x|" = "```\nx\n```" ∧
    '*' ∉ ("```\nx\n```".toList) :=
  ⟨by decide, by decide⟩

/-- C9, amended: the *emphasis-rewrite step* leaves a `**` occurrence
verbatim whenever no `**` occurs later in the text (stated for an
occurrence not bordered by further asterisks); table-cell rendering may
still strip asterisks.  In particular
`transform("**unclosed") = "**unclosed"`. -/
theorem trans_C9 :
    (∀ pre rest : List Char,
      hasAdjStars pre = false →
      pre.getLast? ≠ some '*' →
      hasAdjStars rest = false →
      emphGo none (pre ++ '*' :: '*' :: rest) = pre ++ '*' :: '*' :: rest) ∧
    translate_markdown_for_slack "**unclosed" = "**unclosed" := by
  constructor
  · intro pre rest h1 h2 h3
    rw [emphGo_none_before pre rest h1 h2]
    rw [emphGo_none_open]
    have := (emphGo_id_aux rest.length rest (Nat.le_refl _)).2 []
      (hasCloseAhead_false_of_noAdj rest h3) (hasBoldPair_false_of_noAdj rest h3)
    rw [this]
    rfl
  · decide

/-- C9, witness for the general clause of the amended theorem. -/
theorem trans_C9_witness :
    emphGo none ("a".toList ++ '*' :: '*' :: "unclosed".toList)
      = "a".toList ++ '*' :: '*' :: "unclosed".toList :=
  trans_C9.1 "a".toList "unclosed".toList (by decide) (by decide) (by decide)

/-- C10, confirmed: when the first parsed row of a block has zero cells,
`num_cols` is 0 and every rendered content line — one per row, plus one
separator line iff there is more than one row — is empty; the block is the
two fence lines around those empty lines. -/
theorem trans_C10 : ∀ tl : List (List Char),
    tl ≠ [] →
    parseCells (tl.headD []) = [] →
    format_table_for_slack tl
        = List.replicate (tl.length + (if 1 < tl.length then 1 else 0)) [] ∧
    renderBlock tl
        = fence :: (List.replicate (tl.length + (if 1 < tl.length then 1 else 0)) []
            ++ [fence]) := by
  intro tl hne h0
  have hmain : format_table_for_slack tl
      = List.replicate (tl.length + (if 1 < tl.length then 1 else 0)) [] := by
    cases tl with
    | nil => exact absurd rfl hne
    | cons l ts =>
      simp only [List.headD_cons] at h0
      unfold format_table_for_slack
      rw [if_neg hne]
      rw [List.map_cons, h0]
      dsimp only
      simp only [List.length_nil, List.range_zero, List.map_nil]
      rw [formatCells_zero_cols]
      rw [map_joinSep_zero_cols]
      cases ts with
      | nil => simp [joinSep]
      | cons t ts' =>
        have hmap : (t :: ts').map parseCells ≠ [] := by simp
        rw [if_neg hmap]
        simp only [List.length_map, List.length_cons]
        rw [show sepLine 0 ([] : List Nat) = [] from rfl]
        rw [if_pos (show 1 < ts'.length + 1 + 1 by omega)]
        simp [joinSep, List.replicate_succ]
  refine ⟨hmain, ?_⟩
  unfold renderBlock
  rw [if_neg hne, hmain]

/-- C10, witness. -/
theorem trans_C10_witness :
    format_table_for_slack [['|'], ['|']] = List.replicate 3 [] ∧
    renderBlock [['|'], ['|']] = fence :: (List.replicate 3 [] ++ [fence]) :=
  trans_C10 [['|'], ['|']] (by decide) (by decide)

end Slackbot
